import Mathlib

/-!
Verification development for the htlcswitch routing core
(`htlcswitch/interfaces.go`).  The Go file declares the interfaces
`ChannelLink`, `Peer`, `InvoiceDatabase`, `ForwardingLog`; the behaviour of
the switch, the policy check, the circuit map and the mailbox is specified
in the accompanying design document and is modelled here as an executable
state machine.  Amounts are natural numbers of milli-satoshi; the
proportional fee rate is an exact rational, and the fee comparison is
implemented by integer cross-multiplication so that it evaluates by `decide`.
-/

namespace HtlcSwitch

/-- Modelled from the spec: amounts are milli-satoshi (`lnwire.MilliSatoshi`). -/
abbrev MilliSatoshi := Nat

/-- Modelled from the spec: opaque stand-in for the 32-byte `payHash` argument. -/
abbrev PaymentHash := Nat

/-- Modelled from the spec: `ForwardingPolicy`
`{baseFee, feeRateProportional, timeLockDelta, minForwardAmount, maxForwardAmount}`.
The base fee is an integer amount of milli-satoshi; `feeRateProportional` is
kept as an exact rational (the spec uses values such as 0.001).  The missing
Go implementation is not under `src/`. -/
structure ForwardingPolicy where
  baseFee : MilliSatoshi
  feeRateProportional : ℚ
  timeLockDelta : Nat
  minForwardAmount : MilliSatoshi
  maxForwardAmount : MilliSatoshi
deriving DecidableEq

/-- Modelled from the spec: the expected forwarding fee
`baseFee + feeRateProportional * forwardAmount`. -/
def expectedFee (p : ForwardingPolicy) (amtToForward : MilliSatoshi) : ℚ :=
  (p.baseFee : ℚ) + p.feeRateProportional * amtToForward

/-- Modelled from the spec: the structured protocol failures an admission
check may return (`lnwire.FailureMessage` values); `unknownChannel` is the
switch-level failure for an unresolvable short channel id. -/
inductive FailureMessage where
  | amountBelowMinimum
  | amountAboveMaximum
  | feeInsufficient
  | timeLockTooSmall
  | temporaryChannelFailure
  | unknownChannel
deriving DecidableEq

/-- Modelled from the spec: the link state the switch reads — the current
forwarding policy and the tracked bandwidth (`ChannelLink.Bandwidth()`).
The link implementation itself is not under `src/`. -/
structure LinkState where
  policy : ForwardingPolicy
  bandwidth : MilliSatoshi
deriving DecidableEq

/-- Modelled from the spec: `ChannelLink.HtlcSatifiesPolicy` (spelling from
the Go interface declaration).  Checks, in the spec's order:
amount-below-minimum, amount-above-maximum, insufficient-fee
(`fee < baseFee + feeRateProportional * forwardAmount`, implemented by
integer cross-multiplication with the rate's numerator and denominator),
then temporary-channel-failure (insufficient bandwidth).  The declared
interface passes no time-lock field among its arguments, so no time-lock
comparison is expressible here; `timeLockDelta` sits unused in the policy.
Returns `none` when the HTLC satisfies the policy. -/
def htlcSatifiesPolicy (l : LinkState) (payHash : PaymentHash)
    (incomingAmt amtToForward : MilliSatoshi) : Option FailureMessage :=
  if amtToForward < l.policy.minForwardAmount then some .amountBelowMinimum
  else if l.policy.maxForwardAmount < amtToForward then some .amountAboveMaximum
  else if ((incomingAmt : ℤ) - amtToForward - l.policy.baseFee) *
      l.policy.feeRateProportional.den <
      l.policy.feeRateProportional.num * amtToForward then
    some .feeInsufficient
  else if l.bandwidth < amtToForward then some .temporaryChannelFailure
  else none

/-- Modelled from the spec: the bandwidth-independent part of the admission
decision — a pure function of the policy and the amounts alone.  Used to
state that the fee/bounds decision does not read any other link state. -/
def policyAdmission (p : ForwardingPolicy)
    (incomingAmt amtToForward : MilliSatoshi) : Option FailureMessage :=
  if amtToForward < p.minForwardAmount then some .amountBelowMinimum
  else if p.maxForwardAmount < amtToForward then some .amountAboveMaximum
  else if ((incomingAmt : ℤ) - amtToForward - p.baseFee) *
      p.feeRateProportional.den < p.feeRateProportional.num * amtToForward then
    some .feeInsufficient
  else none

/-- The integer cross-multiplied fee test used by the admission check is
exactly the rational comparison `incoming − forward < expectedFee`. -/
theorem fee_check_iff (p : ForwardingPolicy) (i f : MilliSatoshi) :
    (((i : ℤ) - f - p.baseFee) * p.feeRateProportional.den <
        p.feeRateProportional.num * f) ↔
      ((i : ℚ) - f < expectedFee p f) := by
  have hd : (0 : ℚ) < (p.feeRateProportional.den : ℚ) := by
    exact_mod_cast p.feeRateProportional.pos
  rw [expectedFee]
  conv_rhs => rw [← Rat.num_div_den p.feeRateProportional]
  rw [div_mul_eq_mul_div, ← sub_lt_iff_lt_add', lt_div_iff₀ hd]
  constructor
  · intro h
    have h2 : ((((i : ℤ) - f - p.baseFee) * p.feeRateProportional.den : ℤ) : ℚ) <
        ((p.feeRateProportional.num * f : ℤ) : ℚ) := by exact_mod_cast h
    push_cast at h2 ⊢
    convert h2 using 2
  · intro h
    have h2 : ((((i : ℤ) - f - p.baseFee) * p.feeRateProportional.den : ℤ) : ℚ) <
        ((p.feeRateProportional.num * f : ℤ) : ℚ) := by
      push_cast at h ⊢
      convert h using 2
    exact_mod_cast h2

/-- The fixture of spec Scenario A:
`{base = 10, rate = 0.001, min = 1, max = 1,000,000}`. -/
def scenarioPolicy : ForwardingPolicy :=
  { baseFee := 10, feeRateProportional := mkRat 1 1000, timeLockDelta := 144,
    minForwardAmount := 1, maxForwardAmount := 1000000 }

/-- Scenario A's link: the policy above with ample bandwidth. -/
def scenarioLink : LinkState :=
  { policy := scenarioPolicy, bandwidth := 1000000000 }

/-- Modelled from the spec: `HtlcPacket`, the in-flight forwarding
instruction.  Direction and failure reason are carried by the operations of
the state machine rather than stored in the packet. -/
structure HtlcPacket where
  paymentHash : PaymentHash
  incomingLink : Nat
  outgoingLink : Nat
  incomingAmount : MilliSatoshi
  outgoingAmount : MilliSatoshi
  htlcIndex : Nat
deriving DecidableEq

/-- Modelled from the spec: a circuit key `(incomingLink, htlcIndex)`. -/
abbrev CircuitKey := Nat × Nat

/-- The circuit key of a packet. -/
def HtlcPacket.circuitKey (pkt : HtlcPacket) : CircuitKey :=
  (pkt.incomingLink, pkt.htlcIndex)

/-- Modelled from the spec: `Circuit`, the switch's record tying one incoming
HTLC to one outgoing HTLC, keyed by `(incomingLink, htlcIndex)`. -/
structure Circuit where
  incomingLink : Nat
  htlcIndex : Nat
  outgoingLink : Nat
  amountIn : MilliSatoshi
  amountOut : MilliSatoshi
deriving DecidableEq

/-- The key of a circuit. -/
def Circuit.key (c : Circuit) : CircuitKey := (c.incomingLink, c.htlcIndex)

/-- Modelled from the spec: `ForwardingEvent {amountIn, amountOut, fee}`
derived from a retired circuit.  The outgoing link id is kept so the fee can
be related to the destination link's policy; the timestamp is not modelled. -/
structure ForwardingEvent where
  outgoingLink : Nat
  amountIn : MilliSatoshi
  amountOut : MilliSatoshi
  fee : MilliSatoshi
deriving DecidableEq

/-- Modelled from the spec: the switch state — the routing table of links,
the circuit map (owned exclusively by the switch), the set of circuit keys
ever admitted (htlc indices are never reused), the `ForwardingEvent` buffer
and the already-flushed external `ForwardingLog`. -/
structure SwitchState where
  links : List (Nat × LinkState)
  circuits : List Circuit
  usedKeys : List CircuitKey
  eventBuffer : List ForwardingEvent
  log : List ForwardingEvent
deriving DecidableEq

/-- Look a link up in the routing table by its link id. -/
def getLink (lid : Nat) : List (Nat × LinkState) → Option LinkState
  | [] => none
  | (k, l) :: rest => if k = lid then some l else getLink lid rest

/-- Apply `g` to the link registered under `lid`; identity elsewhere. -/
def adjustLink (lid : Nat) (g : LinkState → LinkState) :
    List (Nat × LinkState) → List (Nat × LinkState)
  | [] => []
  | (k, l) :: rest =>
    (k, if k = lid then g l else l) :: adjustLink lid g rest

/-- Find the open circuit with the given key, if any. -/
def findCircuit (k : CircuitKey) : List Circuit → Option Circuit
  | [] => none
  | c :: cs => if c.key = k then some c else findCircuit k cs

/-- Delete every open circuit with the given key. -/
def removeCircuit (k : CircuitKey) : List Circuit → List Circuit
  | [] => []
  | c :: cs => if c.key = k then removeCircuit k cs else c :: removeCircuit k cs

/-- The number of open circuits with the given key. -/
def countKey (k : CircuitKey) : List Circuit → Nat
  | [] => 0
  | c :: cs => (if c.key = k then 1 else 0) + countKey k cs

/-- Observable outcome of one switch operation. -/
inductive Effect where
  | created (k : CircuitKey)
  | settledCircuit (k : CircuitKey)
  | failedCircuit (k : CircuitKey)
  | rejected (e : FailureMessage)
  | duplicateKey (k : CircuitKey)
  | circuitNotFound (k : CircuitKey)
  | flushed (ok : Bool)
deriving DecidableEq

/-- Count the occurrences of one effect in a trace. -/
def countEff (t : Effect) : List Effect → Nat
  | [] => 0
  | e :: es => (if e = t then 1 else 0) + countEff t es

/-- Modelled from the spec: `Switch.forward(packet)`.  Resolves the
destination link (`unknownChannel` if absent), runs `HtlcSatifiesPolicy` on
it, rejects a circuit key that was ever used before, and on success
allocates the circuit, records the key as used and decrements the tracked
outgoing bandwidth.  A rejection leaves the state untouched. -/
def forward (s : SwitchState) (pkt : HtlcPacket) : SwitchState × Effect :=
  match getLink pkt.outgoingLink s.links with
  | none => (s, .rejected .unknownChannel)
  | some l =>
    match htlcSatifiesPolicy l pkt.paymentHash pkt.incomingAmount pkt.outgoingAmount with
    | some e => (s, .rejected e)
    | none =>
      if pkt.circuitKey ∈ s.usedKeys then (s, .duplicateKey pkt.circuitKey)
      else
        ({ s with
            circuits := { incomingLink := pkt.incomingLink
                          htlcIndex := pkt.htlcIndex
                          outgoingLink := pkt.outgoingLink
                          amountIn := pkt.incomingAmount
                          amountOut := pkt.outgoingAmount } :: s.circuits
            usedKeys := pkt.circuitKey :: s.usedKeys
            links := adjustLink pkt.outgoingLink
              (fun l2 => { l2 with bandwidth := l2.bandwidth - pkt.outgoingAmount })
              s.links },
          .created pkt.circuitKey)

/-- Modelled from the spec: `Switch.settleOrFail(resolution)`.  Looks the
circuit up by key — `circuitNotFound` and no state change if absent
(duplicate or stale resolution).  On a match it restores the bandwidth
accounting, deletes the circuit and, only on settle, appends a
`ForwardingEvent` (with `fee = amountIn − amountOut`) to the buffer. -/
def settleOrFail (s : SwitchState) (k : CircuitKey) (isSettle : Bool) :
    SwitchState × Effect :=
  match findCircuit k s.circuits with
  | none => (s, .circuitNotFound k)
  | some c =>
      ({ s with
          circuits := removeCircuit k s.circuits
          links := adjustLink c.outgoingLink
            (fun l2 => { l2 with bandwidth := l2.bandwidth + c.amountOut })
            s.links
          eventBuffer :=
            if isSettle then
              s.eventBuffer ++
                [{ outgoingLink := c.outgoingLink, amountIn := c.amountIn,
                   amountOut := c.amountOut, fee := c.amountIn - c.amountOut }]
            else s.eventBuffer },
        if isSettle then .settledCircuit k else .failedCircuit k)

/-- Modelled from the spec: one tick of the periodic flush loop.  `ok` is
whether `ForwardingLog.AddForwardingEvents` succeeds: on success the buffer
is appended to the log and cleared; on failure the state is left intact and
the same events are retried on the next tick. -/
def flushEvents (s : SwitchState) (ok : Bool) : SwitchState × Effect :=
  if ok then ({ s with log := s.log ++ s.eventBuffer, eventBuffer := [] }, .flushed true)
  else (s, .flushed false)

/-- The operations driving the switch state machine. -/
inductive Op where
  | forwardPacket (pkt : HtlcPacket)
  | settle (k : CircuitKey)
  | failResolution (k : CircuitKey)
  | flushTick (ok : Bool)
deriving DecidableEq

/-- Apply one operation. -/
def applyOp (s : SwitchState) : Op → SwitchState × Effect
  | .forwardPacket pkt => forward s pkt
  | .settle k => settleOrFail s k true
  | .failResolution k => settleOrFail s k false
  | .flushTick ok => flushEvents s ok

/-- Run a list of operations, collecting the trace of effects. -/
def run (s : SwitchState) : List Op → SwitchState × List Effect
  | [] => (s, [])
  | op :: ops =>
    let se := applyOp s op
    let rest := run se.1 ops
    (rest.1, se.2 :: rest.2)

/-- The initial switch state over a routing table: no circuits, no used
keys, empty buffers. -/
def SwitchState.init (links : List (Nat × LinkState)) : SwitchState :=
  { links := links, circuits := [], usedKeys := [], eventBuffer := [], log := [] }

/-- Indicator: is the key recorded as ever used? -/
def usedInd (k : CircuitKey) (s : SwitchState) : Nat :=
  if k ∈ s.usedKeys then 1 else 0

theorem usedInd_le_one (k : CircuitKey) (s : SwitchState) : usedInd k s ≤ 1 := by
  unfold usedInd; split <;> simp

theorem countKey_removeCircuit_self (k : CircuitKey) (cs : List Circuit) :
    countKey k (removeCircuit k cs) = 0 := by
  induction cs with
  | nil => rfl
  | cons c cs ih =>
    by_cases h : c.key = k <;> simp [removeCircuit, countKey, h, ih]

theorem countKey_removeCircuit_other (k k0 : CircuitKey) (cs : List Circuit)
    (hne : k ≠ k0) : countKey k (removeCircuit k0 cs) = countKey k cs := by
  induction cs with
  | nil => rfl
  | cons c cs ih =>
    by_cases h : c.key = k0
    · have : ¬(c.key = k) := by rw [h]; exact Ne.symm hne
      simp [removeCircuit, countKey, h, this, ih, Ne.symm hne]
    · simp [removeCircuit, countKey, h, ih]

theorem findCircuit_some_countKey (k : CircuitKey) (cs : List Circuit)
    (c : Circuit) (h : findCircuit k cs = some c) : 1 ≤ countKey k cs := by
  induction cs with
  | nil => simp [findCircuit] at h
  | cons c2 cs ih =>
    by_cases h2 : c2.key = k
    · simp [countKey, h2]
    · simp only [findCircuit, h2, if_false] at h
      have := ih h
      simp [countKey, h2]
      omega

theorem findCircuit_none_countKey (k : CircuitKey) (cs : List Circuit)
    (h : findCircuit k cs = none) : countKey k cs = 0 := by
  induction cs with
  | nil => rfl
  | cons c2 cs ih =>
    by_cases h2 : c2.key = k
    · simp [findCircuit, h2] at h
    · simp only [findCircuit, h2, if_false] at h
      simp [countKey, h2, ih h]

theorem findCircuit_removeCircuit (k : CircuitKey) (cs : List Circuit) :
    findCircuit k (removeCircuit k cs) = none := by
  induction cs with
  | nil => rfl
  | cons c cs ih =>
    by_cases h : c.key = k <;> simp [removeCircuit, findCircuit, h, ih]

/-- Everything `forward` can do: a rejection or a duplicate key leaves the
state untouched; an admission pushes the circuit, marks the key used and
debits the destination link's bandwidth. -/
theorem forward_cases (s : SwitchState) (pkt : HtlcPacket) :
    (∃ e, forward s pkt = (s, .rejected e)) ∨
    (pkt.circuitKey ∈ s.usedKeys ∧ forward s pkt = (s, .duplicateKey pkt.circuitKey)) ∨
    (pkt.circuitKey ∉ s.usedKeys ∧
      (∃ l, getLink pkt.outgoingLink s.links = some l ∧
        htlcSatifiesPolicy l pkt.paymentHash pkt.incomingAmount pkt.outgoingAmount = none) ∧
      (forward s pkt).2 = .created pkt.circuitKey ∧
      (forward s pkt).1.circuits =
        { incomingLink := pkt.incomingLink, htlcIndex := pkt.htlcIndex,
          outgoingLink := pkt.outgoingLink, amountIn := pkt.incomingAmount,
          amountOut := pkt.outgoingAmount } :: s.circuits ∧
      (forward s pkt).1.usedKeys = pkt.circuitKey :: s.usedKeys ∧
      (forward s pkt).1.links =
        adjustLink pkt.outgoingLink
          (fun l2 => { l2 with bandwidth := l2.bandwidth - pkt.outgoingAmount })
          s.links ∧
      (forward s pkt).1.eventBuffer = s.eventBuffer ∧
      (forward s pkt).1.log = s.log) := by
  rcases hg : getLink pkt.outgoingLink s.links with _ | l
  · exact .inl ⟨.unknownChannel, by simp [forward, hg]⟩
  · rcases hp : htlcSatifiesPolicy l pkt.paymentHash pkt.incomingAmount pkt.outgoingAmount
      with _ | e
    · by_cases hmem : pkt.circuitKey ∈ s.usedKeys
      · exact .inr (.inl ⟨hmem, by simp [forward, hg, hp, hmem]⟩)
      · refine .inr (.inr ⟨hmem, ⟨l, rfl, hp⟩, ?_, ?_, ?_, ?_, ?_, ?_⟩) <;>
          simp [forward, hg, hp, hmem]
    · exact .inl ⟨e, by simp [forward, hg, hp]⟩

/-- Everything `settleOrFail` can do: a missing circuit is an exact no-op;
a match deletes the circuit, credits back the bandwidth and appends a
forwarding event only on settle. -/
theorem settleOrFail_cases (s : SwitchState) (k0 : CircuitKey) (b : Bool) :
    (findCircuit k0 s.circuits = none ∧ settleOrFail s k0 b = (s, .circuitNotFound k0)) ∨
    (∃ c, findCircuit k0 s.circuits = some c ∧
      (settleOrFail s k0 b).2 =
        (if b then Effect.settledCircuit k0 else Effect.failedCircuit k0) ∧
      (settleOrFail s k0 b).1.circuits = removeCircuit k0 s.circuits ∧
      (settleOrFail s k0 b).1.usedKeys = s.usedKeys ∧
      (settleOrFail s k0 b).1.links =
        adjustLink c.outgoingLink
          (fun l2 => { l2 with bandwidth := l2.bandwidth + c.amountOut })
          s.links ∧
      (settleOrFail s k0 b).1.eventBuffer =
        (if b then
          s.eventBuffer ++
            [{ outgoingLink := c.outgoingLink, amountIn := c.amountIn,
               amountOut := c.amountOut, fee := c.amountIn - c.amountOut }]
        else s.eventBuffer) ∧
      (settleOrFail s k0 b).1.log = s.log) := by
  rcases hf : findCircuit k0 s.circuits with _ | c
  · exact .inl ⟨rfl, by simp [settleOrFail, hf]⟩
  · refine .inr ⟨c, rfl, ?_, ?_, ?_, ?_, ?_, ?_⟩ <;> simp [settleOrFail, hf]

theorem usedInd_of_usedKeys_eq {s1 s2 : SwitchState} (k : CircuitKey)
    (h : s1.usedKeys = s2.usedKeys) : usedInd k s1 = usedInd k s2 := by
  unfold usedInd; rw [h]

theorem flushEvents_circuits (s : SwitchState) (ok : Bool) :
    (flushEvents s ok).1.circuits = s.circuits := by rcases ok <;> rfl

theorem flushEvents_usedKeys (s : SwitchState) (ok : Bool) :
    (flushEvents s ok).1.usedKeys = s.usedKeys := by rcases ok <;> rfl

theorem flushEvents_links (s : SwitchState) (ok : Bool) :
    (flushEvents s ok).1.links = s.links := by rcases ok <;> rfl

theorem flushEvents_effect (s : SwitchState) (ok : Bool) :
    (flushEvents s ok).2 = .flushed ok := by rcases ok <;> rfl

/-- One step preserves `countKey ≤ usedInd` and satisfies the per-key
accounting equations: a key becomes used exactly when `created` is emitted,
and open circuits are created-minus-terminated. -/
theorem step_counts (s : SwitchState) (op : Op) (k : CircuitKey)
    (hinv : ∀ k2, countKey k2 s.circuits ≤ usedInd k2 s) :
    (∀ k2, countKey k2 (applyOp s op).1.circuits ≤ usedInd k2 (applyOp s op).1) ∧
    usedInd k (applyOp s op).1 =
      usedInd k s + (if (applyOp s op).2 = .created k then 1 else 0) ∧
    countKey k (applyOp s op).1.circuits
        + (if (applyOp s op).2 = .settledCircuit k then 1 else 0)
        + (if (applyOp s op).2 = .failedCircuit k then 1 else 0)
      = countKey k s.circuits + (if (applyOp s op).2 = .created k then 1 else 0) := by
  rcases op with pkt | k0 | k0 | ok
  · rcases forward_cases s pkt with ⟨e, hfw⟩ | ⟨hmem, hfw⟩ |
      ⟨hmem, hl, heff, hcir, hused, hlinks, hbuf, hlog⟩
    · refine ⟨fun k2 => ?_, ?_, ?_⟩
      · simpa [applyOp, hfw] using hinv k2
      · simp [applyOp, hfw]
      · simp [applyOp, hfw]
    · refine ⟨fun k2 => ?_, ?_, ?_⟩
      · simpa [applyOp, hfw] using hinv k2
      · simp [applyOp, hfw]
      · simp [applyOp, hfw]
    · have hkey : (Circuit.mk pkt.incomingLink pkt.htlcIndex pkt.outgoingLink
          pkt.incomingAmount pkt.outgoingAmount).key = pkt.circuitKey := rfl
      have hzero : countKey pkt.circuitKey s.circuits = 0 := by
        have h1 := hinv pkt.circuitKey
        unfold usedInd at h1
        simp [hmem] at h1
        exact h1
      refine ⟨fun k2 => ?_, ?_, ?_⟩
      · simp only [applyOp]
        rw [hcir]
        unfold usedInd
        rw [hused]
        by_cases hk2 : k2 = pkt.circuitKey
        · subst hk2
          simp [countKey, hkey, hzero]
        · have h2 := hinv k2
          unfold usedInd at h2
          simp only [countKey, hkey, List.mem_cons]
          simp [Ne.symm hk2, hk2]
          exact h2
      · simp only [applyOp]
        simp only [heff]
        unfold usedInd
        rw [hused]
        by_cases hk : k = pkt.circuitKey
        · subst hk
          simp [hmem]
        · simp [List.mem_cons, hk, Ne.symm hk]
      · simp only [applyOp]
        simp only [heff, hcir]
        by_cases hk : k = pkt.circuitKey
        · subst hk
          simp [countKey, hkey, Nat.add_comm]
        · simp [countKey, hkey, Ne.symm hk, hk]
  · rcases settleOrFail_cases s k0 true with ⟨hf, hsf⟩ |
      ⟨c, hf, heff, hcir, hused, hlinks, hbuf, hlog⟩
    · refine ⟨fun k2 => ?_, ?_, ?_⟩
      · simpa [applyOp, hsf] using hinv k2
      · simp [applyOp, hsf]
      · simp [applyOp, hsf]
    · simp only [if_true] at heff hbuf
      have hcnt1 : countKey k0 s.circuits = 1 := by
        have h1 := findCircuit_some_countKey k0 s.circuits c hf
        have h2 := hinv k0
        have h3 := usedInd_le_one k0 s
        omega
      refine ⟨fun k2 => ?_, ?_, ?_⟩
      · simp only [applyOp]
        rw [hcir, usedInd_of_usedKeys_eq k2 hused]
        by_cases hk2 : k2 = k0
        · subst hk2
          rw [countKey_removeCircuit_self]
          exact Nat.zero_le _
        · rw [countKey_removeCircuit_other _ _ _ hk2]
          exact hinv k2
      · simp only [applyOp]
        rw [usedInd_of_usedKeys_eq k hused]
        simp only [heff]
        simp
      · simp only [applyOp]
        simp only [heff, hcir]
        by_cases hk : k = k0
        · subst hk
          rw [countKey_removeCircuit_self]
          simp [hcnt1]
        · rw [countKey_removeCircuit_other _ _ _ hk]
          simp [Ne.symm hk]
  · rcases settleOrFail_cases s k0 false with ⟨hf, hsf⟩ |
      ⟨c, hf, heff, hcir, hused, hlinks, hbuf, hlog⟩
    · refine ⟨fun k2 => ?_, ?_, ?_⟩
      · simpa [applyOp, hsf] using hinv k2
      · simp [applyOp, hsf]
      · simp [applyOp, hsf]
    · simp only [Bool.false_eq_true, if_false] at heff hbuf
      have hcnt1 : countKey k0 s.circuits = 1 := by
        have h1 := findCircuit_some_countKey k0 s.circuits c hf
        have h2 := hinv k0
        have h3 := usedInd_le_one k0 s
        omega
      refine ⟨fun k2 => ?_, ?_, ?_⟩
      · simp only [applyOp]
        rw [hcir, usedInd_of_usedKeys_eq k2 hused]
        by_cases hk2 : k2 = k0
        · subst hk2
          rw [countKey_removeCircuit_self]
          exact Nat.zero_le _
        · rw [countKey_removeCircuit_other _ _ _ hk2]
          exact hinv k2
      · simp only [applyOp]
        rw [usedInd_of_usedKeys_eq k hused]
        simp only [heff]
        simp
      · simp only [applyOp]
        simp only [heff, hcir]
        by_cases hk : k = k0
        · subst hk
          rw [countKey_removeCircuit_self]
          simp [hcnt1]
        · rw [countKey_removeCircuit_other _ _ _ hk]
          simp [Ne.symm hk]
  · refine ⟨fun k2 => ?_, ?_, ?_⟩
    · simp only [applyOp, flushEvents_circuits,
        usedInd_of_usedKeys_eq k2 (flushEvents_usedKeys s ok)]
      exact hinv k2
    · simp only [applyOp, flushEvents_effect,
        usedInd_of_usedKeys_eq k (flushEvents_usedKeys s ok)]
      simp
    · simp only [applyOp, flushEvents_circuits, flushEvents_effect]
      simp

/-- Accumulated accounting over a whole trace: used keys count the `created`
effects, and open circuits equal created minus terminated, per key. -/
theorem run_counts (ops : List Op) : ∀ (s : SwitchState),
    (∀ k2, countKey k2 s.circuits ≤ usedInd k2 s) →
    (∀ k2, countKey k2 (run s ops).1.circuits ≤ usedInd k2 (run s ops).1) ∧
    ∀ k : CircuitKey,
      usedInd k (run s ops).1 = usedInd k s + countEff (.created k) (run s ops).2 ∧
      countKey k (run s ops).1.circuits
          + countEff (.settledCircuit k) (run s ops).2
          + countEff (.failedCircuit k) (run s ops).2
        = countKey k s.circuits + countEff (.created k) (run s ops).2 := by
  induction ops with
  | nil =>
    intro s hinv
    refine ⟨hinv, fun k => ?_⟩
    simp [run, countEff]
  | cons op ops ih =>
    intro s hinv
    have hstep := fun k2 => step_counts s op k2 hinv
    have hinv1 : ∀ k2, countKey k2 (applyOp s op).1.circuits ≤
        usedInd k2 (applyOp s op).1 := (hstep (0, 0)).1
    obtain ⟨hfin, hrest⟩ := ih (applyOp s op).1 hinv1
    constructor
    · intro k2
      simpa [run] using hfin k2
    · intro k
      obtain ⟨h1, h2⟩ := hrest k
      obtain ⟨_, e1, e2⟩ := hstep k
      simp only [run, countEff]
      constructor
      · omega
      · omega

/-- C1: over every trace from an initial state, each circuit key is created
at most once, reaches at most one terminal outcome (settle xor fail), the
circuit map never holds two circuits for the same key, and once a terminal
outcome is recorded the circuit is deleted. -/
theorem circuit_lifecycle_unique (links : List (Nat × LinkState))
    (ops : List Op) (k : CircuitKey) :
    countEff (.created k) (run (SwitchState.init links) ops).2 ≤ 1 ∧
    countEff (.settledCircuit k) (run (SwitchState.init links) ops).2 +
        countEff (.failedCircuit k) (run (SwitchState.init links) ops).2 ≤ 1 ∧
    countKey k (run (SwitchState.init links) ops).1.circuits ≤ 1 ∧
    (1 ≤ countEff (.settledCircuit k) (run (SwitchState.init links) ops).2 +
        countEff (.failedCircuit k) (run (SwitchState.init links) ops).2 →
      countKey k (run (SwitchState.init links) ops).1.circuits = 0) := by
  have hinv0 : ∀ k2, countKey k2 (SwitchState.init links).circuits ≤
      usedInd k2 (SwitchState.init links) := by
    intro k2
    simp [SwitchState.init, countKey]
  obtain ⟨hfin, hrest⟩ := run_counts ops (SwitchState.init links) hinv0
  obtain ⟨h1, h2⟩ := hrest k
  have hle := usedInd_le_one k (run (SwitchState.init links) ops).1
  have h0 : usedInd k (SwitchState.init links) = 0 := by
    simp [SwitchState.init, usedInd]
  have hc0 : countKey k (SwitchState.init links).circuits = 0 := by
    simp [SwitchState.init, countKey]
  refine ⟨by omega, by omega, by omega, by omega⟩

/-- A routing table whose policies carry a nonnegative proportional rate. -/
def LinksOk (links : List (Nat × LinkState)) : Prop :=
  ∀ q ∈ links, (0 : ℚ) ≤ q.2.policy.feeRateProportional

/-- Every open circuit pays at least the destination link's expected fee. -/
def CircOk (s : SwitchState) : Prop :=
  ∀ c ∈ s.circuits, c.amountOut ≤ c.amountIn ∧
    ∃ l, getLink c.outgoingLink s.links = some l ∧
      expectedFee l.policy c.amountOut ≤ (c.amountIn : ℚ) - c.amountOut

/-- Every forwarding event, buffered or flushed, conserves amounts and pays
at least the destination link's expected fee. -/
def EventsOk (s : SwitchState) : Prop :=
  ∀ ev ∈ s.eventBuffer ++ s.log, ev.amountOut + ev.fee = ev.amountIn ∧
    ∃ l, getLink ev.outgoingLink s.links = some l ∧
      expectedFee l.policy ev.amountOut ≤ (ev.fee : ℚ)

theorem getLink_mem (lid : Nat) (links : List (Nat × LinkState)) (l : LinkState)
    (h : getLink lid links = some l) : (lid, l) ∈ links := by
  induction links with
  | nil => simp [getLink] at h
  | cons q rest ih =>
    obtain ⟨k, l2⟩ := q
    by_cases hk : k = lid
    · subst hk
      simp [getLink] at h
      subst h
      exact List.mem_cons_self _ _
    · simp [getLink, hk] at h
      exact List.mem_cons_of_mem _ (ih h)

theorem getLink_adjustLink (lid tgt : Nat) (g : LinkState → LinkState)
    (links : List (Nat × LinkState)) :
    getLink lid (adjustLink tgt g links) =
      if tgt = lid then (getLink lid links).map g else getLink lid links := by
  induction links with
  | nil => simp [getLink, adjustLink]
  | cons q rest ih =>
    obtain ⟨k, l2⟩ := q
    by_cases hl : k = lid
    · by_cases ht : tgt = lid
      · have hkt : k = tgt := by rw [hl, ht]
        simp [getLink, adjustLink, hl, ht, hkt]
      · have hkt : ¬(k = tgt) := fun hh => ht (by rw [← hh, hl])
        have ht2 : ¬(lid = tgt) := fun hh => ht hh.symm
        simp [getLink, adjustLink, hl, ht, ht2, hkt]
    · by_cases ht : tgt = lid
      · simp only [ht] at ih ⊢
        simp [getLink, adjustLink, hl, ih]
      · simp [getLink, adjustLink, hl, ht, ih]

theorem getLink_adjustLink_policy {lid : Nat} (tgt : Nat) {g : LinkState → LinkState}
    (hg : ∀ l2, (g l2).policy = l2.policy) {links : List (Nat × LinkState)}
    {l : LinkState} (h : getLink lid links = some l) :
    ∃ l2, getLink lid (adjustLink tgt g links) = some l2 ∧ l2.policy = l.policy := by
  rw [getLink_adjustLink]
  by_cases ht : tgt = lid
  · exact ⟨g l, by simp [ht, h], hg l⟩
  · exact ⟨l, by simp [ht, h], rfl⟩

theorem LinksOk_adjustLink {links : List (Nat × LinkState)} {tgt : Nat}
    {g : LinkState → LinkState} (hl : LinksOk links)
    (hg : ∀ l2, (g l2).policy = l2.policy) : LinksOk (adjustLink tgt g links) := by
  induction links with
  | nil => intro q hq; simp [adjustLink] at hq
  | cons q0 rest ih =>
    intro q hq
    obtain ⟨k, l0⟩ := q0
    have hl0 : (0 : ℚ) ≤ l0.policy.feeRateProportional := hl (k, l0) (List.mem_cons_self _ _)
    have hltail : LinksOk rest := fun q2 hq2 => hl q2 (List.mem_cons_of_mem _ hq2)
    simp only [adjustLink, List.mem_cons] at hq
    rcases hq with hq | hq
    · by_cases hk : k = tgt
      · simp [hk] at hq
        rw [hq]
        simpa [hg l0] using hl0
      · simp [hk] at hq
        rw [hq]
        exact hl0
    · exact ih hltail q hq

theorem removeCircuit_mem {k : CircuitKey} {cs : List Circuit} {c : Circuit}
    (h : c ∈ removeCircuit k cs) : c ∈ cs := by
  induction cs with
  | nil => simp [removeCircuit] at h
  | cons c2 cs ih =>
    by_cases h2 : c2.key = k
    · simp only [removeCircuit, h2, if_true] at h
      exact List.mem_cons_of_mem _ (ih h)
    · simp only [removeCircuit, h2, if_false, List.mem_cons] at h
      rcases h with h | h
      · exact h ▸ List.mem_cons_self _ _
      · exact List.mem_cons_of_mem _ (ih h)

theorem findCircuit_mem {k : CircuitKey} {cs : List Circuit} {c : Circuit}
    (h : findCircuit k cs = some c) : c ∈ cs := by
  induction cs with
  | nil => simp [findCircuit] at h
  | cons c2 cs ih =>
    by_cases h2 : c2.key = k
    · simp [findCircuit, h2] at h
      exact h ▸ List.mem_cons_self _ _
    · simp [findCircuit, h2] at h
      exact List.mem_cons_of_mem _ (ih h)

theorem expectedFee_nonneg (p : ForwardingPolicy) (f : MilliSatoshi)
    (hr : (0 : ℚ) ≤ p.feeRateProportional) : 0 ≤ expectedFee p f := by
  unfold expectedFee
  have h1 : (0 : ℚ) ≤ (p.baseFee : ℚ) := Nat.cast_nonneg _
  have h2 : (0 : ℚ) ≤ p.feeRateProportional * f :=
    mul_nonneg hr (Nat.cast_nonneg _)
  linarith

/-- What a passing `HtlcSatifiesPolicy` check guarantees: bounds inclusive,
at least the expected fee, and enough bandwidth. -/
theorem policy_none_facts (l : LinkState) (h : PaymentHash) (i f : MilliSatoshi)
    (hp : htlcSatifiesPolicy l h i f = none) :
    l.policy.minForwardAmount ≤ f ∧ f ≤ l.policy.maxForwardAmount ∧
    expectedFee l.policy f ≤ (i : ℚ) - f ∧ f ≤ l.bandwidth := by
  unfold htlcSatifiesPolicy at hp
  split_ifs at hp with h1 h2 h3 h4
  refine ⟨Nat.le_of_not_lt h1, Nat.le_of_not_lt h2, ?_, Nat.le_of_not_lt h4⟩
  have := (fee_check_iff l.policy i f).not.mp h3
  exact not_lt.mp this

theorem flushEvents_mem_events {s : SwitchState} {ok : Bool} {ev : ForwardingEvent}
    (h : ev ∈ (flushEvents s ok).1.eventBuffer ++ (flushEvents s ok).1.log) :
    ev ∈ s.eventBuffer ++ s.log := by
  rcases ok <;> simp [flushEvents] at h ⊢ <;> tauto

/-- One step preserves the fee-conservation invariants. -/
theorem step_feeInv (s : SwitchState) (op : Op)
    (hL : LinksOk s.links) (hC : CircOk s) (hE : EventsOk s) :
    LinksOk (applyOp s op).1.links ∧ CircOk (applyOp s op).1 ∧
      EventsOk (applyOp s op).1 := by
  rcases op with pkt | k0 | k0 | ok
  · rcases forward_cases s pkt with ⟨e, hfw⟩ | ⟨hmem, hfw⟩ |
      ⟨hmem, ⟨l, hgl, hp⟩, heff, hcir, hused, hlinks, hbuf, hlog⟩
    · simp only [applyOp, hfw]; exact ⟨hL, hC, hE⟩
    · simp only [applyOp, hfw]; exact ⟨hL, hC, hE⟩
    · have hg : ∀ l2 : LinkState,
          (LinkState.mk l2.policy (l2.bandwidth - pkt.outgoingAmount)).policy = l2.policy :=
        fun _ => rfl
      obtain ⟨hmin, hmax, hfee, hbw⟩ :=
        policy_none_facts l pkt.paymentHash pkt.incomingAmount pkt.outgoingAmount hp
      have hrate : (0 : ℚ) ≤ l.policy.feeRateProportional :=
        hL _ (getLink_mem _ _ _ hgl)
      have hfee0 : (0 : ℚ) ≤ expectedFee l.policy pkt.outgoingAmount :=
        expectedFee_nonneg _ _ hrate
      have hle : pkt.outgoingAmount ≤ pkt.incomingAmount := by
        have h2 : (pkt.outgoingAmount : ℚ) ≤ (pkt.incomingAmount : ℚ) := by linarith
        exact_mod_cast h2
      refine ⟨?_, ?_, ?_⟩
      · simp only [applyOp]
        rw [hlinks]
        exact LinksOk_adjustLink hL hg
      · intro c hc
        simp only [applyOp] at hc ⊢
        rw [hcir] at hc
        rw [hlinks]
        rcases List.mem_cons.mp hc with rfl | hc2
        · refine ⟨hle, ?_⟩
          obtain ⟨l2, hgl2, hpol⟩ := getLink_adjustLink_policy pkt.outgoingLink hg hgl
          exact ⟨l2, hgl2, by rw [hpol]; exact hfee⟩
        · obtain ⟨hcle, l3, hgl3, hf3⟩ := hC c hc2
          obtain ⟨l4, hgl4, hpol4⟩ := getLink_adjustLink_policy pkt.outgoingLink hg hgl3
          exact ⟨hcle, l4, hgl4, by rw [hpol4]; exact hf3⟩
      · intro ev hev
        simp only [applyOp] at hev ⊢
        rw [hbuf, hlog] at hev
        obtain ⟨hsum, l3, hgl3, hf3⟩ := hE ev hev
        rw [hlinks]
        obtain ⟨l4, hgl4, hpol4⟩ := getLink_adjustLink_policy pkt.outgoingLink hg hgl3
        exact ⟨hsum, l4, hgl4, by rw [hpol4]; exact hf3⟩
  · rcases settleOrFail_cases s k0 true with ⟨hf, hsf⟩ |
      ⟨c, hf, heff, hcir, hused, hlinks, hbuf, hlog⟩
    · simp only [applyOp, hsf]; exact ⟨hL, hC, hE⟩
    · simp only [if_true] at heff hbuf
      have hg : ∀ l2 : LinkState,
          (LinkState.mk l2.policy (l2.bandwidth + c.amountOut)).policy = l2.policy :=
        fun _ => rfl
      obtain ⟨hcle, lc, hglc, hfc⟩ := hC c (findCircuit_mem hf)
      refine ⟨?_, ?_, ?_⟩
      · simp only [applyOp]
        rw [hlinks]
        exact LinksOk_adjustLink hL hg
      · intro c2 hc2
        simp only [applyOp] at hc2 ⊢
        rw [hcir] at hc2
        rw [hlinks]
        obtain ⟨hle2, l3, hgl3, hf3⟩ := hC c2 (removeCircuit_mem hc2)
        obtain ⟨l4, hgl4, hpol4⟩ := getLink_adjustLink_policy c.outgoingLink hg hgl3
        exact ⟨hle2, l4, hgl4, by rw [hpol4]; exact hf3⟩
      · intro ev hev
        simp only [applyOp] at hev ⊢
        rw [hbuf, hlog] at hev
        rw [hlinks]
        simp only [List.mem_append, List.mem_singleton] at hev
        rcases hev with (hev | rfl) | hev
        · obtain ⟨hsum, l3, hgl3, hf3⟩ := hE ev (by simp [List.mem_append, hev])
          obtain ⟨l4, hgl4, hpol4⟩ := getLink_adjustLink_policy c.outgoingLink hg hgl3
          exact ⟨hsum, l4, hgl4, by rw [hpol4]; exact hf3⟩
        · refine ⟨show c.amountOut + (c.amountIn - c.amountOut) = c.amountIn from
            Nat.add_sub_cancel' hcle, ?_⟩
          obtain ⟨l4, hgl4, hpol4⟩ := getLink_adjustLink_policy c.outgoingLink hg hglc
          refine ⟨l4, hgl4, ?_⟩
          rw [hpol4]
          simp only
          rw [Nat.cast_sub hcle]
          exact hfc
        · obtain ⟨hsum, l3, hgl3, hf3⟩ := hE ev (by simp [List.mem_append, hev])
          obtain ⟨l4, hgl4, hpol4⟩ := getLink_adjustLink_policy c.outgoingLink hg hgl3
          exact ⟨hsum, l4, hgl4, by rw [hpol4]; exact hf3⟩
  · rcases settleOrFail_cases s k0 false with ⟨hf, hsf⟩ |
      ⟨c, hf, heff, hcir, hused, hlinks, hbuf, hlog⟩
    · simp only [applyOp, hsf]; exact ⟨hL, hC, hE⟩
    · simp only [Bool.false_eq_true, if_false] at heff hbuf
      have hg : ∀ l2 : LinkState,
          (LinkState.mk l2.policy (l2.bandwidth + c.amountOut)).policy = l2.policy :=
        fun _ => rfl
      refine ⟨?_, ?_, ?_⟩
      · simp only [applyOp]
        rw [hlinks]
        exact LinksOk_adjustLink hL hg
      · intro c2 hc2
        simp only [applyOp] at hc2 ⊢
        rw [hcir] at hc2
        rw [hlinks]
        obtain ⟨hle2, l3, hgl3, hf3⟩ := hC c2 (removeCircuit_mem hc2)
        obtain ⟨l4, hgl4, hpol4⟩ := getLink_adjustLink_policy c.outgoingLink hg hgl3
        exact ⟨hle2, l4, hgl4, by rw [hpol4]; exact hf3⟩
      · intro ev hev
        simp only [applyOp] at hev ⊢
        rw [hbuf, hlog] at hev
        rw [hlinks]
        obtain ⟨hsum, l3, hgl3, hf3⟩ := hE ev hev
        obtain ⟨l4, hgl4, hpol4⟩ := getLink_adjustLink_policy c.outgoingLink hg hgl3
        exact ⟨hsum, l4, hgl4, by rw [hpol4]; exact hf3⟩
  · refine ⟨?_, ?_, ?_⟩
    · simp only [applyOp, flushEvents_links]
      exact hL
    · intro c hc
      simp only [applyOp, flushEvents_circuits, flushEvents_links] at hc ⊢
      exact hC c hc
    · intro ev hev
      simp only [applyOp, flushEvents_links] at hev ⊢
      exact hE ev (flushEvents_mem_events hev)

/-- The fee-conservation invariants hold along every run. -/
theorem run_feeInv (ops : List Op) : ∀ (s : SwitchState),
    LinksOk s.links → CircOk s → EventsOk s →
    LinksOk (run s ops).1.links ∧ CircOk (run s ops).1 ∧
      EventsOk (run s ops).1 := by
  induction ops with
  | nil => intro s hL hC hE; exact ⟨hL, hC, hE⟩
  | cons op ops ih =>
    intro s hL hC hE
    obtain ⟨hL1, hC1, hE1⟩ := step_feeInv s op hL hC hE
    have := ih (applyOp s op).1 hL1 hC1 hE1
    simpa [run] using this

theorem forward_of_policy_some (s : SwitchState) (pkt : HtlcPacket)
    (l : LinkState) (e : FailureMessage)
    (hgl : getLink pkt.outgoingLink s.links = some l)
    (hp : htlcSatifiesPolicy l pkt.paymentHash pkt.incomingAmount pkt.outgoingAmount
      = some e) : forward s pkt = (s, .rejected e) := by
  simp [forward, hgl, hp]

/-- A forward whose fee is below the destination policy's expected fee is
always rejected, and with the amount inside the min/max bounds the failure
is specifically insufficient-fee. -/
theorem forward_fee_violation (s : SwitchState) (pkt : HtlcPacket) (l : LinkState)
    (hgl : getLink pkt.outgoingLink s.links = some l)
    (hviol : (pkt.incomingAmount : ℚ) - pkt.outgoingAmount <
      expectedFee l.policy pkt.outgoingAmount) :
    (∃ e, forward s pkt = (s, .rejected e)) ∧
    (l.policy.minForwardAmount ≤ pkt.outgoingAmount →
      pkt.outgoingAmount ≤ l.policy.maxForwardAmount →
      forward s pkt = (s, .rejected .feeInsufficient)) := by
  have hint := (fee_check_iff l.policy pkt.incomingAmount pkt.outgoingAmount).mpr hviol
  by_cases h1 : pkt.outgoingAmount < l.policy.minForwardAmount
  · have hp : htlcSatifiesPolicy l pkt.paymentHash pkt.incomingAmount pkt.outgoingAmount
        = some .amountBelowMinimum := by simp [htlcSatifiesPolicy, h1]
    refine ⟨⟨_, forward_of_policy_some s pkt l _ hgl hp⟩,
      fun hmin _ => absurd h1 (not_lt.mpr hmin)⟩
  · by_cases h2 : l.policy.maxForwardAmount < pkt.outgoingAmount
    · have hp : htlcSatifiesPolicy l pkt.paymentHash pkt.incomingAmount pkt.outgoingAmount
          = some .amountAboveMaximum := by simp [htlcSatifiesPolicy, h1, h2]
      refine ⟨⟨_, forward_of_policy_some s pkt l _ hgl hp⟩,
        fun _ hmax => absurd h2 (not_lt.mpr hmax)⟩
    · have hp : htlcSatifiesPolicy l pkt.paymentHash pkt.incomingAmount pkt.outgoingAmount
          = some .feeInsufficient := by simp [htlcSatifiesPolicy, h1, h2, hint]
      have hfw := forward_of_policy_some s pkt l _ hgl hp
      exact ⟨⟨_, hfw⟩, fun _ _ => hfw⟩

/-- C2: every forwarding event of a reachable state conserves amounts
(`amountOut + fee = amountIn`, i.e. `amountIn − amountOut = fee`) and pays
at least `baseFee + feeRateProportional * amountOut` of the destination
link's policy; and a forward whose fee would violate that inequality is
rejected at admission, with the insufficient-fee failure whenever the
amount is within the policy bounds. -/
theorem settled_circuit_fee_conservation :
    (∀ (links : List (Nat × LinkState)) (ops : List Op), LinksOk links →
      ∀ ev ∈ (run (SwitchState.init links) ops).1.eventBuffer ++
          (run (SwitchState.init links) ops).1.log,
        ev.amountOut + ev.fee = ev.amountIn ∧
        ∃ l, getLink ev.outgoingLink (run (SwitchState.init links) ops).1.links = some l ∧
          expectedFee l.policy ev.amountOut ≤ (ev.fee : ℚ)) ∧
    (∀ (s : SwitchState) (pkt : HtlcPacket) (l : LinkState),
      getLink pkt.outgoingLink s.links = some l →
      (pkt.incomingAmount : ℚ) - pkt.outgoingAmount <
        expectedFee l.policy pkt.outgoingAmount →
      (∃ e, forward s pkt = (s, .rejected e)) ∧
      (l.policy.minForwardAmount ≤ pkt.outgoingAmount →
        pkt.outgoingAmount ≤ l.policy.maxForwardAmount →
        forward s pkt = (s, .rejected .feeInsufficient))) := by
  constructor
  · intro links ops hL ev hev
    have hC0 : CircOk (SwitchState.init links) := by
      intro c hc; simp [SwitchState.init] at hc
    have hE0 : EventsOk (SwitchState.init links) := by
      intro ev2 hev2; simp [SwitchState.init] at hev2
    obtain ⟨hLf, hCf, hEf⟩ := run_feeInv ops (SwitchState.init links) hL hC0 hE0
    exact hEf ev hev
  · exact forward_fee_violation

/-- The routing table of the scenario fixtures: one destination link with
id 2 carrying the Scenario A policy. -/
def wLinks : List (Nat × LinkState) := [(2, scenarioLink)]

/-- Scenario A's admitted packet: 10,000 in, 9,980 out. -/
def wPktA : HtlcPacket :=
  { paymentHash := 0, incomingLink := 1, outgoingLink := 2,
    incomingAmount := 10000, outgoingAmount := 9980, htlcIndex := 5 }

/-- Forward Scenario A's packet, then settle its circuit. -/
def wOpsA : List Op := [.forwardPacket wPktA, .settle (1, 5)]

/-- Scenario A's rejected packet: proposed outgoing amount 9,985. -/
def wPktBad : HtlcPacket :=
  { paymentHash := 0, incomingLink := 1, outgoingLink := 2,
    incomingAmount := 10000, outgoingAmount := 9985, htlcIndex := 7 }

/-- The forwarding event Scenario A's settled circuit produces. -/
def wEvent : ForwardingEvent :=
  { outgoingLink := 2, amountIn := 10000, amountOut := 9980, fee := 20 }

theorem settled_circuit_fee_conservation_witness :
    (wEvent.amountOut + wEvent.fee = wEvent.amountIn ∧
      ∃ l, getLink wEvent.outgoingLink (run (SwitchState.init wLinks) wOpsA).1.links
          = some l ∧
        expectedFee l.policy wEvent.amountOut ≤ (wEvent.fee : ℚ)) ∧
    forward (SwitchState.init wLinks) wPktBad =
      (SwitchState.init wLinks, .rejected .feeInsufficient) :=
  ⟨settled_circuit_fee_conservation.1 wLinks wOpsA (by unfold LinksOk; decide) wEvent
      (by decide),
   (settled_circuit_fee_conservation.2 (SwitchState.init wLinks) wPktBad scenarioLink
      (by decide)
      ((fee_check_iff scenarioPolicy 10000 9985).mp (by decide))).2
      (by decide) (by decide)⟩

end HtlcSwitch

namespace HtlcSwitch

/-- C3: with `minForwardAmount ≤ maxForwardAmount`, an amount strictly below
the minimum or strictly above the maximum always draws a policy failure and
can never be forwarded, while an amount exactly at either bound passes the
bounds checks and — with fee and bandwidth adequate — is admitted. -/
theorem policy_bounds_inclusive (l : LinkState) (h : PaymentHash)
    (i f : MilliSatoshi)
    (hmm : l.policy.minForwardAmount ≤ l.policy.maxForwardAmount) :
    (f < l.policy.minForwardAmount →
      htlcSatifiesPolicy l h i f = some .amountBelowMinimum) ∧
    (l.policy.maxForwardAmount < f →
      htlcSatifiesPolicy l h i f = some .amountAboveMaximum) ∧
    (∀ (s : SwitchState) (pkt : HtlcPacket),
      getLink pkt.outgoingLink s.links = some l →
      (pkt.outgoingAmount < l.policy.minForwardAmount ∨
        l.policy.maxForwardAmount < pkt.outgoingAmount) →
      ∃ e, forward s pkt = (s, .rejected e)) ∧
    ((f = l.policy.minForwardAmount ∨ f = l.policy.maxForwardAmount) →
      expectedFee l.policy f ≤ (i : ℚ) - f →
      f ≤ l.bandwidth →
      htlcSatifiesPolicy l h i f = none) := by
  refine ⟨?_, ?_, ?_, ?_⟩
  · intro h1
    simp [htlcSatifiesPolicy, h1]
  · intro h2
    have h1 : ¬(f < l.policy.minForwardAmount) :=
      not_lt.mpr (le_trans hmm (Nat.le_of_lt h2))
    simp [htlcSatifiesPolicy, h1, h2]
  · intro s pkt hgl hb
    rcases hb with hb | hb
    · have hp : htlcSatifiesPolicy l pkt.paymentHash pkt.incomingAmount
          pkt.outgoingAmount = some .amountBelowMinimum := by
        simp [htlcSatifiesPolicy, hb]
      exact ⟨_, forward_of_policy_some s pkt l _ hgl hp⟩
    · have h1 : ¬(pkt.outgoingAmount < l.policy.minForwardAmount) :=
        not_lt.mpr (le_trans hmm (Nat.le_of_lt hb))
      have hp : htlcSatifiesPolicy l pkt.paymentHash pkt.incomingAmount
          pkt.outgoingAmount = some .amountAboveMaximum := by
        simp [htlcSatifiesPolicy, h1, hb]
      exact ⟨_, forward_of_policy_some s pkt l _ hgl hp⟩
  · intro hf hfee hbw
    have hminf : l.policy.minForwardAmount ≤ f := by
      rcases hf with hf | hf
      · exact le_of_eq hf.symm
      · exact hf ▸ hmm
    have hfmax : f ≤ l.policy.maxForwardAmount := by
      rcases hf with hf | hf
      · exact hf ▸ hmm
      · exact le_of_eq hf
    have h1 : ¬(f < l.policy.minForwardAmount) := not_lt.mpr hminf
    have h2 : ¬(l.policy.maxForwardAmount < f) := not_lt.mpr hfmax
    have h3 : ¬(((i : ℤ) - f - l.policy.baseFee) * l.policy.feeRateProportional.den <
        l.policy.feeRateProportional.num * f) := fun hlt =>
      absurd ((fee_check_iff l.policy i f).mp hlt) (not_lt.mpr hfee)
    have h4 : ¬(l.bandwidth < f) := not_lt.mpr hbw
    simp [htlcSatifiesPolicy, h1, h2, h3, h4]

/-- A boundary-test link: policy `{base = 0, rate = 0, min = 5, max = 10}`,
bandwidth 100. -/
def wBoundLink : LinkState :=
  LinkState.mk (ForwardingPolicy.mk 0 (mkRat 0 1) 0 5 10) 100

/-- A packet below the boundary-test link's minimum amount. -/
def wPktLow : HtlcPacket :=
  { paymentHash := 0, incomingLink := 1, outgoingLink := 3,
    incomingAmount := 4, outgoingAmount := 4, htlcIndex := 0 }

theorem policy_bounds_inclusive_witness :
    htlcSatifiesPolicy wBoundLink 0 4 4 = some .amountBelowMinimum ∧
    htlcSatifiesPolicy wBoundLink 0 11 11 = some .amountAboveMaximum ∧
    (∃ e, forward (SwitchState.init [(3, wBoundLink)]) wPktLow =
      (SwitchState.init [(3, wBoundLink)], .rejected e)) ∧
    htlcSatifiesPolicy wBoundLink 0 5 5 = none ∧
    htlcSatifiesPolicy wBoundLink 0 10 10 = none := by
  have hfee5 : expectedFee wBoundLink.policy 5 ≤ (5 : ℚ) - 5 :=
    not_lt.mp (fun hlt =>
      absurd ((fee_check_iff wBoundLink.policy 5 5).mpr hlt) (by decide))
  have hfee10 : expectedFee wBoundLink.policy 10 ≤ (10 : ℚ) - 10 :=
    not_lt.mp (fun hlt =>
      absurd ((fee_check_iff wBoundLink.policy 10 10).mpr hlt) (by decide))
  refine ⟨(policy_bounds_inclusive wBoundLink 0 4 4 (by decide)).1 (by decide),
    (policy_bounds_inclusive wBoundLink 0 11 11 (by decide)).2.1 (by decide),
    (policy_bounds_inclusive wBoundLink 0 4 4 (by decide)).2.2.1
      (SwitchState.init [(3, wBoundLink)]) wPktLow (by decide) (.inl (by decide)),
    (policy_bounds_inclusive wBoundLink 0 5 5 (by decide)).2.2.2
      (.inl (by decide)) hfee5 (by decide),
    (policy_bounds_inclusive wBoundLink 0 10 10 (by decide)).2.2.2
      (.inr (by decide)) hfee10 (by decide)⟩

/-- C4: a settle or fail for a key with no open circuit is an exact no-op
returning `circuitNotFound`; a fail that does match deletes the circuit,
records no forwarding event, and any second settle or fail for the same key
is then an exact no-op. -/
theorem settleOrFail_idempotent :
    (∀ (s : SwitchState) (k : CircuitKey),
      findCircuit k s.circuits = none →
      settleOrFail s k true = (s, .circuitNotFound k) ∧
      settleOrFail s k false = (s, .circuitNotFound k)) ∧
    (∀ (s : SwitchState) (k : CircuitKey) (c : Circuit),
      findCircuit k s.circuits = some c →
      (settleOrFail s k false).2 = .failedCircuit k ∧
      (settleOrFail s k false).1.eventBuffer = s.eventBuffer ∧
      findCircuit k (settleOrFail s k false).1.circuits = none ∧
      settleOrFail (settleOrFail s k false).1 k true =
        ((settleOrFail s k false).1, .circuitNotFound k) ∧
      settleOrFail (settleOrFail s k false).1 k false =
        ((settleOrFail s k false).1, .circuitNotFound k)) := by
  have hnone : ∀ (s : SwitchState) (k : CircuitKey),
      findCircuit k s.circuits = none →
      settleOrFail s k true = (s, .circuitNotFound k) ∧
      settleOrFail s k false = (s, .circuitNotFound k) := by
    intro s k hf
    exact ⟨by simp [settleOrFail, hf], by simp [settleOrFail, hf]⟩
  refine ⟨hnone, ?_⟩
  intro s k c hf
  rcases settleOrFail_cases s k false with ⟨hf2, _⟩ |
    ⟨c2, hf2, heff, hcir, hused, hlinks, hbuf, hlog⟩
  · rw [hf] at hf2
    exact absurd hf2 (by simp)
  · simp only [Bool.false_eq_true, if_false] at heff hbuf
    have hgone : findCircuit k (settleOrFail s k false).1.circuits = none := by
      rw [hcir]
      exact findCircuit_removeCircuit k s.circuits
    obtain ⟨hs1, hs2⟩ := hnone (settleOrFail s k false).1 k hgone
    exact ⟨heff, hbuf, hgone, hs1, hs2⟩

/-- The duplicate-resolution witness scenario: one admitted circuit whose
fail resolution is delivered twice. -/
def wStateC : SwitchState :=
  (forward (SwitchState.init wLinks)
    { paymentHash := 0, incomingLink := 1, outgoingLink := 2,
      incomingAmount := 10000, outgoingAmount := 9980, htlcIndex := 9 }).1

theorem settleOrFail_idempotent_witness :
    ((settleOrFail wStateC (1, 9) false).2 = .failedCircuit (1, 9) ∧
      (settleOrFail wStateC (1, 9) false).1.eventBuffer = wStateC.eventBuffer ∧
      settleOrFail (settleOrFail wStateC (1, 9) false).1 (1, 9) false =
        ((settleOrFail wStateC (1, 9) false).1, .circuitNotFound (1, 9))) ∧
    settleOrFail (SwitchState.init wLinks) (1, 9) true =
      (SwitchState.init wLinks, .circuitNotFound (1, 9)) := by
  have h2 := settleOrFail_idempotent.2 wStateC (1, 9)
    (Circuit.mk 1 9 2 10000 9980) (by decide)
  exact ⟨⟨h2.1, h2.2.1, h2.2.2.2.2⟩,
    (settleOrFail_idempotent.1 (SwitchState.init wLinks) (1, 9) (by decide)).1⟩

end HtlcSwitch

namespace HtlcSwitch

/-- The bandwidth-test link: permissive policy, bandwidth 5,000. -/
def wPoorLink : LinkState :=
  LinkState.mk (ForwardingPolicy.mk 0 (mkRat 0 1) 0 0 1000000) 5000

/-- A packet attempting to forward 6,000 through the bandwidth-test link. -/
def wPkt6000 : HtlcPacket :=
  { paymentHash := 0, incomingLink := 1, outgoingLink := 4,
    incomingAmount := 6000, outgoingAmount := 6000, htlcIndex := 0 }

/-- C5: a forward whose amount exceeds the destination link's bandwidth —
with the bounds and fee checks passing, so the bandwidth check is what
fires — returns the temporary-channel-failure protocol failure and leaves
the whole switch state, its tracked bandwidth included, unchanged; in the
concrete scenario, bandwidth 5,000 against an attempted 6,000. -/
theorem bandwidth_reject_atomic :
    (∀ (s : SwitchState) (pkt : HtlcPacket) (l : LinkState),
      getLink pkt.outgoingLink s.links = some l →
      l.policy.minForwardAmount ≤ pkt.outgoingAmount →
      pkt.outgoingAmount ≤ l.policy.maxForwardAmount →
      expectedFee l.policy pkt.outgoingAmount ≤
        (pkt.incomingAmount : ℚ) - pkt.outgoingAmount →
      l.bandwidth < pkt.outgoingAmount →
      forward s pkt = (s, .rejected .temporaryChannelFailure)) ∧
    (forward (SwitchState.init [(4, wPoorLink)]) wPkt6000 =
        (SwitchState.init [(4, wPoorLink)], .rejected .temporaryChannelFailure) ∧
      getLink 4 (forward (SwitchState.init [(4, wPoorLink)]) wPkt6000).1.links =
        some wPoorLink) := by
  constructor
  · intro s pkt l hgl hmin hmax hfee hbw
    have h1 : ¬(pkt.outgoingAmount < l.policy.minForwardAmount) := not_lt.mpr hmin
    have h2 : ¬(l.policy.maxForwardAmount < pkt.outgoingAmount) := not_lt.mpr hmax
    have h3 : ¬(((pkt.incomingAmount : ℤ) - pkt.outgoingAmount - l.policy.baseFee) *
        l.policy.feeRateProportional.den <
        l.policy.feeRateProportional.num * pkt.outgoingAmount) := fun hlt =>
      absurd ((fee_check_iff l.policy pkt.incomingAmount pkt.outgoingAmount).mp hlt)
        (not_lt.mpr hfee)
    have hp : htlcSatifiesPolicy l pkt.paymentHash pkt.incomingAmount
        pkt.outgoingAmount = some .temporaryChannelFailure := by
      simp [htlcSatifiesPolicy, h1, h2, h3, hbw]
    exact forward_of_policy_some s pkt l _ hgl hp
  · exact ⟨by decide, by decide⟩

theorem bandwidth_reject_atomic_witness :
    forward (SwitchState.init [(4, wPoorLink)]) wPkt6000 =
      (SwitchState.init [(4, wPoorLink)], .rejected .temporaryChannelFailure) := by
  have hfee : expectedFee wPoorLink.policy wPkt6000.outgoingAmount ≤
      (wPkt6000.incomingAmount : ℚ) - wPkt6000.outgoingAmount :=
    not_lt.mp (fun hlt =>
      absurd ((fee_check_iff wPoorLink.policy 6000 6000).mpr hlt) (by decide))
  exact bandwidth_reject_atomic.1 (SwitchState.init [(4, wPoorLink)]) wPkt6000
    wPoorLink (by decide) (by decide) (by decide) hfee (by decide)

/-- C6: one flush tick appends the whole buffer to the external log and
clears it exactly when the write succeeds; a failed write is an exact no-op
leaving the buffer intact, so the same events go out on the next successful
tick and no event is ever dropped by a flush. -/
theorem flush_at_least_once (s : SwitchState) :
    ((flushEvents s true).1.eventBuffer = [] ∧
      (flushEvents s true).1.log = s.log ++ s.eventBuffer) ∧
    flushEvents s false = (s, .flushed false) ∧
    (∀ ok : Bool, ((flushEvents s ok).1.eventBuffer = [] ↔
      (ok = true ∨ s.eventBuffer = []))) ∧
    (∀ ok : Bool, ∀ ev ∈ s.eventBuffer,
      ev ∈ (flushEvents s ok).1.eventBuffer ++ (flushEvents s ok).1.log) ∧
    (flushEvents (flushEvents s false).1 true).1.log = s.log ++ s.eventBuffer := by
  refine ⟨⟨by simp [flushEvents], by simp [flushEvents]⟩, by simp [flushEvents],
    ?_, ?_, by simp [flushEvents]⟩
  · intro ok
    rcases ok <;> simp [flushEvents]
  · intro ok ev hev
    rcases ok <;> simp [flushEvents] <;> tauto

theorem flush_at_least_once_witness :
    (flushEvents (flushEvents (SwitchState.mk [] [] [] [wEvent] []) false).1 true).1.log
      = [] ++ [wEvent] ∧
    wEvent ∈ (flushEvents (SwitchState.mk [] [] [] [wEvent] []) false).1.eventBuffer ++
      (flushEvents (SwitchState.mk [] [] [] [wEvent] []) false).1.log := by
  refine ⟨(flush_at_least_once (SwitchState.mk [] [] [] [wEvent] [])).2.2.2.2, ?_⟩
  exact (flush_at_least_once (SwitchState.mk [] [] [] [wEvent] [])).2.2.2.1 false wEvent
    (by decide)

end HtlcSwitch

namespace HtlcSwitch

/-- Modelled from the spec: opaque stand-in for `lnwire.Message`. -/
abbrev WireMessage := Nat

/-- Modelled from the spec: `MailBox`, a bounded, strictly FIFO queue of
pending messages for one link.  The implementation is not under `src/`. -/
structure MailBox where
  capacity : Nat
  msgs : List WireMessage
deriving DecidableEq

/-- Modelled from the spec: `Deliver` — a strict try-enqueue that fails
(`none`, i.e. MailboxFull) instead of blocking when the box is full. -/
def MailBox.deliver (b : MailBox) (m : WireMessage) : Option MailBox :=
  if b.capacity ≤ b.msgs.length then none
  else some { b with msgs := b.msgs ++ [m] }

/-- Deliver a sequence of messages, dropping each one the full box refuses. -/
def MailBox.deliverAll (b : MailBox) : List WireMessage → MailBox
  | [] => b
  | m :: ms =>
    match b.deliver m with
    | some b2 => b2.deliverAll ms
    | none => b.deliverAll ms

/-- Modelled from the spec: the consumer side — dequeue the oldest pending
message, if any. -/
def MailBox.take (b : MailBox) : Option (WireMessage × MailBox) :=
  match b.msgs with
  | [] => none
  | m :: rest => some (m, { b with msgs := rest })

/-- Repeatedly `take` with fuel. -/
def MailBox.drainFrom : Nat → MailBox → List WireMessage
  | 0, _ => []
  | n + 1, b =>
    match b.take with
    | none => []
    | some (m, b2) => m :: MailBox.drainFrom n b2

/-- The sequence obtained by dequeueing until the box is empty. -/
def MailBox.drain (b : MailBox) : List WireMessage :=
  MailBox.drainFrom b.msgs.length b

/-- Modelled from the spec: the link object as the mailbox sees it — an id
and the currently attached mailbox (`ChannelLink.AttachMailBox`). -/
structure LinkObj where
  linkId : Nat
  mbox : Option MailBox
deriving DecidableEq

/-- Modelled from the spec: `AttachMailBox` binds (or rebinds) a mailbox
instance to the link; the mailbox's buffered messages are untouched. -/
def LinkObj.attachMailBox (l : LinkObj) (b : MailBox) : LinkObj :=
  { l with mbox := some b }

/-- Detach the link from its mailbox (a restart); the instance survives. -/
def LinkObj.detachMailBox (l : LinkObj) : LinkObj :=
  { l with mbox := none }

/-- `zs` is an interleaving of the two producers' sequences `xs` and `ys`. -/
inductive Interleaving {α : Type} : List α → List α → List α → Prop where
  | nil : Interleaving [] [] []
  | left (x : α) {xs ys zs : List α} :
      Interleaving xs ys zs → Interleaving (x :: xs) ys (x :: zs)
  | right (y : α) {xs ys zs : List α} :
      Interleaving xs ys zs → Interleaving xs (y :: ys) (y :: zs)

theorem drainFrom_msgs (ms : List WireMessage) : ∀ (cap : Nat),
    MailBox.drainFrom ms.length (MailBox.mk cap ms) = ms := by
  induction ms with
  | nil => intro cap; rfl
  | cons m rest ih =>
    intro cap
    simp [MailBox.drainFrom, MailBox.take, ih cap]

theorem drain_eq (b : MailBox) : b.drain = b.msgs := by
  obtain ⟨cap, ms⟩ := b
  exact drainFrom_msgs ms cap

theorem deliverAll_msgs (ms : List WireMessage) : ∀ (cap : Nat)
    (pending : List WireMessage), pending.length + ms.length ≤ cap →
    (MailBox.deliverAll (MailBox.mk cap pending) ms).msgs = pending ++ ms := by
  induction ms with
  | nil => intro cap pending h; simp [MailBox.deliverAll]
  | cons m rest ih =>
    intro cap pending h
    have hlt : ¬(cap ≤ pending.length) := by
      simp at h
      omega
    simp only [MailBox.deliverAll, MailBox.deliver, hlt, if_false]
    have h2 : (pending ++ [m]).length + rest.length ≤ cap := by
      simp at h ⊢
      omega
    rw [ih cap (pending ++ [m]) h2]
    simp

/-- C7: for any interleaving of two producers (and any prior pending
sequence that fits the capacity), the mailbox dequeues exactly the
delivered sequence in delivery order, and detaching and reattaching the
link to the same mailbox instance preserves that pending sequence. -/
theorem mailbox_fifo_reattach (cap : Nat)
    (pending ms1 ms2 ms : List WireMessage) (l : LinkObj)
    (hint : Interleaving ms1 ms2 ms)
    (hcap : pending.length + ms.length ≤ cap) :
    (MailBox.deliverAll (MailBox.mk cap pending) ms).drain = pending ++ ms ∧
    ((l.detachMailBox).attachMailBox
        (MailBox.deliverAll (MailBox.mk cap pending) ms)).mbox =
      some (MailBox.deliverAll (MailBox.mk cap pending) ms) ∧
    ((l.detachMailBox).attachMailBox
        (MailBox.deliverAll (MailBox.mk cap pending) ms)).mbox.map MailBox.drain =
      some (pending ++ ms) := by
  have hmsgs := deliverAll_msgs ms cap pending hcap
  have hdrain : (MailBox.deliverAll (MailBox.mk cap pending) ms).drain =
      pending ++ ms := by
    rw [drain_eq, hmsgs]
  exact ⟨hdrain, rfl, by simp [LinkObj.attachMailBox, LinkObj.detachMailBox, hdrain]⟩

theorem mailbox_fifo_reattach_witness :
    (MailBox.deliverAll (MailBox.mk 10 [1, 2]) [3, 4]).drain = [1, 2, 3, 4] ∧
    ((LinkObj.mk 7 none).attachMailBox
        (MailBox.deliverAll (MailBox.mk 10 [1, 2]) [3, 4])).mbox.map MailBox.drain =
      some [1, 2, 3, 4] := by
  have h := mailbox_fifo_reattach 10 [1, 2] [3] [4] [3, 4] (LinkObj.mk 7 none)
    (Interleaving.left 3 (Interleaving.right 4 Interleaving.nil)) (by decide)
  exact ⟨h.1, h.2.2⟩

/-- C8: spec Scenario A under policy
`{base = 10, rate = 0.001, min = 1, max = 1,000,000}`: the (10,000 in,
9,980 out) forward is admitted with a fee of exactly 20 — the settled
circuit's recorded event is exactly `{in 10,000, out 9,980, fee 20}` — while
a proposed outgoing amount of 9,985 for the same incoming 10,000 is rejected
as insufficient-fee. -/
theorem scenario_a_fee :
    htlcSatifiesPolicy scenarioLink 0 10000 9980 = none ∧
    (10000 : MilliSatoshi) - 9980 = 20 ∧
    htlcSatifiesPolicy scenarioLink 0 10000 9985 = some .feeInsufficient ∧
    (run (SwitchState.init wLinks) wOpsA).1.eventBuffer =
      [{ outgoingLink := 2, amountIn := 10000, amountOut := 9980, fee := 20 }] := by
  refine ⟨by decide, by decide, by decide, by decide⟩

/-- C9: the fee and bounds part of `HtlcSatifiesPolicy` factors through
`policyAdmission`, a pure function of the forwarding policy and the amounts
passed in — so for a fixed policy, two calls with the same `(payHash,
incomingAmt, amtToForward)` arguments always produce the same fee/bounds
admission decision, whatever the rest of the link state (bandwidth) does.
(The declared interface passes no time-lock field, so the time-lock part of
the decision has no argument to depend on.) -/
theorem policy_check_pure (l1 l2 : LinkState) (h1 h2 : PaymentHash)
    (i f : MilliSatoshi) (hp : l1.policy = l2.policy) :
    policyAdmission l1.policy i f = policyAdmission l2.policy i f ∧
    htlcSatifiesPolicy l1 h1 i f =
      (match policyAdmission l1.policy i f with
        | some e => some e
        | none => if l1.bandwidth < f then some .temporaryChannelFailure
            else none) ∧
    htlcSatifiesPolicy l1 h1 i f = htlcSatifiesPolicy l1 h2 i f := by
  refine ⟨by rw [hp], ?_, rfl⟩
  unfold htlcSatifiesPolicy policyAdmission
  split_ifs <;> rfl

/-- The purity witness link: Scenario A's policy with a tiny bandwidth. -/
def wLinkLowBw : LinkState := LinkState.mk scenarioPolicy 5

theorem policy_check_pure_witness :
    policyAdmission scenarioLink.policy 10000 9980 =
      policyAdmission wLinkLowBw.policy 10000 9980 ∧
    htlcSatifiesPolicy scenarioLink 0 10000 9980 =
      (match policyAdmission scenarioLink.policy 10000 9980 with
        | some e => some e
        | none => if scenarioLink.bandwidth < 9980 then
            some .temporaryChannelFailure else none) :=
  ⟨(policy_check_pure scenarioLink wLinkLowBw 0 1 10000 9980 rfl).1,
   (policy_check_pure scenarioLink wLinkLowBw 0 1 10000 9980 rfl).2.1⟩

end HtlcSwitch

namespace HtlcSwitch

/-- The error values a link's fallible entry points can return (the Go
`error` results on `HandleSwitchPacket` / `Start`). -/
inductive LinkError where
  | mailboxFull
  | linkNotEligible
  | internalFailure (code : Nat)
deriving DecidableEq

/-- The caller-visible surface of the `ChannelLink` interface, with the
return types exactly as declared in `htlcswitch/interfaces.go`:
`HandleSwitchPacket(*htlcPacket) error` can hand an error back to its
caller (`none` is the nil error), while `HandleChannelUpdate(lnwire.Message)`
is declared with no return value at all, so its result type is `Unit`. -/
structure ChannelLink where
  handleSwitchPacket : HtlcPacket → Option LinkError
  handleChannelUpdate : WireMessage → Unit
  chanID : Nat
  shortChanID : Nat
  bandwidth : MilliSatoshi
  eligibleToForward : Bool

/-- C10: because `HandleChannelUpdate` returns nothing, no caller can ever
distinguish one of its outcomes from another — every implementation yields
literally identical results on all inputs, so failures must be absorbed
inside the link; `HandleSwitchPacket`, in contrast, has implementations
whose returned error does distinguish outcomes for the caller. -/
theorem handleChannelUpdate_unobservable :
    (∀ (L : ChannelLink) (m m2 : WireMessage),
      L.handleChannelUpdate m = L.handleChannelUpdate m2) ∧
    (∃ (L : ChannelLink) (p p2 : HtlcPacket),
      L.handleSwitchPacket p ≠ L.handleSwitchPacket p2) := by
  constructor
  · intro L m m2
    rfl
  · refine ⟨ChannelLink.mk
      (fun p => if p.htlcIndex = 0 then some .mailboxFull else none)
      (fun _ => ()) 0 0 0 true,
      HtlcPacket.mk 0 0 0 0 0 0, HtlcPacket.mk 0 0 0 0 0 1, ?_⟩
    simp

end HtlcSwitch

namespace HtlcSwitch

theorem circuit_lifecycle_unique_witness :
    countKey (1, 5) (run (SwitchState.init wLinks) wOpsA).1.circuits = 0 :=
  (circuit_lifecycle_unique wLinks wOpsA (1, 5)).2.2.2 (by decide)

end HtlcSwitch
